import Mathlib

/-!
# Verification of the text-sampler line store

Shallow embedding of `src/server.py` (`class LineCache`): a pool of text
lines with lifetime counters, supporting chunked bulk append (`load` /
`_flush_batch`), destructive uniform sampling by swap-and-pop (`sample`),
`clear` and `reset`.

Modelling conventions:
* The Python object is the record `LineCache` below; every method becomes a
  pure function returning the updated record.
* Python exceptions become `Except String`; since Python mutates `self` in
  place before raising, each fallible operation returns the state it leaves
  behind *together with* the `Except` result, so partially-mutated states at
  a raise are observable.
* `random.randrange(len(self.lines))` is modelled by an arbitrary stream of
  natural numbers `rs`, each draw reduced modulo the current length; every
  possible sequence of in-range indices is realisable this way.
* File I/O (`os.stat`, the `MAX_FILE_SIZE_MB` check, reading and splitting
  the file into raw lines) happens before any mutation of the cache and is
  external to the pool; `load` therefore takes the list of raw lines the
  file iterator would yield and performs the per-line stripping itself.
* Module-level limits come from the defaults of the env vars in
  `server.py` lines 16-18.
-/

namespace TextSampler

/-- Default of `MAX_CACHE_LINES` (server.py line 17). -/
def MAX_CACHE_LINES : Nat := 10000000

/-- Default of `MAX_SAMPLE_SIZE` (server.py line 18). -/
def MAX_SAMPLE_SIZE : Nat := 1000000

/-- Default of the `chunk_size` keyword argument of `LineCache.load`. -/
def DEFAULT_CHUNK_SIZE : Nat := 50000

/-- Python `s.rstrip(c)` for a single character `c`: remove all trailing
occurrences of `c` (implemented on the character list). -/
def pyRstrip (c : Char) (s : String) : String :=
  ⟨(s.data.reverse.dropWhile (· == c)).reverse⟩

/-- Line stripping `raw.rstrip("\n").rstrip("\r")` from `LineCache.load` (line 48). -/
def stripLine (raw : String) : String :=
  pyRstrip '\r' (pyRstrip '\n' raw)

/-- The batches `LineCache.load` flushes: the loop body accumulates lines
and flushes exactly when the batch reaches `chunk_size`, then flushes the
final partial batch.  (The degenerate `c = 0` never occurs: the Python
default is 50000.) -/
def chunksOf (c : Nat) (l : List α) : List (List α) :=
  if h : c = 0 ∨ l.isEmpty then [] else l.take c :: chunksOf c (l.drop c)
termination_by l.length
decreasing_by
  push_neg at h
  have h1 : 0 < l.length := List.length_pos.mpr (by simpa using h.2)
  have h2 : 0 < c := Nat.pos_of_ne_zero h.1
  simp only [List.length_drop]
  omega

/-- The pool state: `self.lines`, `self._total_loaded`, `self._total_sampled`
(server.py lines 22-26).  The lock only serialises operations; in this
sequential model every operation is one atomic transition. -/
structure LineCache where
  lines : List String
  total_loaded : Nat
  total_sampled : Nat
deriving Repr, DecidableEq

/-- Constructor `LineCache.__init__`: empty pool, zero counters. -/
def LineCache.init : LineCache := ⟨[], 0, 0⟩

/-- Method `LineCache.get_stats` (lines 28-34): an atomic snapshot of the triple. -/
def LineCache.get_stats (c : LineCache) : Nat × Nat × Nat :=
  (c.lines.length, c.total_loaded, c.total_sampled)

/-- Method `LineCache._flush_batch` (lines 61-69): under the lock, reject if the
cache is full, else append at most `remaining` lines of the batch and count
them into `_total_loaded`.  Python computes `remaining` as an `int` and only
slices with it after the positivity guard, so `Int` subtraction here matches. -/
def LineCache.flush_batch (c : LineCache) (batch : List String) :
    LineCache × Except String Nat :=
  let remaining : Int := (MAX_CACHE_LINES : Int) - c.lines.length
  if remaining ≤ 0 then
    (c, Except.error "Cache limit reached.")
  else
    let to_add := batch.take remaining.toNat
    ({ c with
        lines := c.lines ++ to_add,
        total_loaded := c.total_loaded + to_add.length },
     Except.ok to_add.length)

/-- The flush loop of `LineCache.load`: flush the batches in order,
accumulating the appended count; a raise from `_flush_batch` aborts the
loop, keeping the state mutated by the earlier flushes. -/
def LineCache.load_chunks :
    LineCache → List (List String) → Nat → LineCache × Except String Nat
  | c, [], acc => (c, Except.ok acc)
  | c, b :: bs, acc =>
    match c.flush_batch b with
    | (c', Except.ok k) => c'.load_chunks bs (acc + k)
    | (c', Except.error e) => (c', Except.error e)

/-- Method `LineCache.load` (lines 36-59) after the external file step: strip each
raw line, flush in chunks of `chunk_size`, return the total appended.  The
`os.stat` existence/size checks raise before any mutation and are part of
the external file-reading collaborator. -/
def LineCache.load (c : LineCache) (rawLines : List String) (chunk_size : Nat) :
    LineCache × Except String Nat :=
  c.load_chunks (chunksOf chunk_size (rawLines.map stripLine)) 0

/-- One iteration of the sampling loop (lines 81-83): pick `i`, swap the
`i`-th and last elements, pop the last.  Returns the popped line and the
remaining list.  Only called with `i < l.length`, so the `getD` defaults are
never read. -/
def swapPop (l : List String) (i : Nat) : String × List String :=
  (l.getD i "", (l.set i (l.getD (l.length - 1) "")).dropLast)

/-- The sampling loop: `k` draws from the random stream `rs`, each index
reduced into the current (shrinking) range as `randrange` guarantees.
Returns the sampled lines in draw order and the remaining pool. -/
def sampleGo : Nat → List String → List Nat → List String × List String
  | 0, l, _ => ([], l)
  | k + 1, l, rs =>
    let i := rs.headD 0 % l.length
    let p := swapPop l i
    let q := sampleGo k p.2 rs.tail
    (p.1 :: q.1, q.2)

/-- Method `LineCache.sample` (lines 71-86): reject negative `n`, reject
`n > MAX_SAMPLE_SIZE`, then remove `min n (len lines)` lines by swap-and-pop
and count them into `_total_sampled`.  `n` is a Python `int`, so `Int`. -/
def LineCache.sample (c : LineCache) (n : Int) (rs : List Nat) :
    LineCache × Except String (List String) :=
  if n < 0 then
    (c, Except.error "n must be >= 0")
  else if (MAX_SAMPLE_SIZE : Int) < n then
    (c, Except.error "n too large. Limit is MAX_SAMPLE_SIZE.")
  else
    let k := min n.toNat c.lines.length
    let p := sampleGo k c.lines rs
    ({ c with lines := p.2, total_sampled := c.total_sampled + k },
     Except.ok p.1)

/-- Method `LineCache.clear` (lines 88-93): empty `lines`, return the prior size,
leave both counters alone. -/
def LineCache.clear (c : LineCache) : LineCache × Nat :=
  ({ c with lines := [] }, c.lines.length)

/-- Method `LineCache.reset` (lines 95-101): empty `lines`, zero both counters,
return the prior size. -/
def LineCache.reset (c : LineCache) : LineCache × Nat :=
  (⟨[], 0, 0⟩, c.lines.length)

/-- A pool operation for invariant claims quantified over call sequences:
a `load` of a file's raw lines (with the default chunk size) or a `sample`
with its random stream. -/
inductive Op where
  | load (rawLines : List String) : Op
  | sample (n : Int) (rs : List Nat) : Op

/-- The state an operation leaves behind, whether it returns or raises
(a raising `load` keeps its partial appends; a raising `sample` leaves the
state untouched). -/
def Op.step (c : LineCache) : Op → LineCache
  | Op.load raw => (c.load raw DEFAULT_CHUNK_SIZE).1
  | Op.sample n rs => (c.sample n rs).1

/-- Run a sequence of operations from the freshly constructed pool. -/
def runOps (ops : List Op) : LineCache :=
  ops.foldl Op.step LineCache.init

/-! ## Supporting lemmas -/

/-- Any valid index splits the list around its element. -/
theorem exists_split (l : List String) (i : Nat) (h : i < l.length) :
    ∃ T x rest, l = T ++ x :: rest ∧ T.length = i := by
  refine ⟨l.take i, l[i], l.drop (i + 1), ?_, ?_⟩
  · conv_lhs => rw [← List.take_append_drop i l]
    rw [List.drop_eq_getElem_cons h]
  · simp [List.length_take, Nat.min_eq_left (Nat.le_of_lt h)]

/-- Reading at the length of the left part of an append-cons yields the
cons head. -/
theorem getD_append_cons (T rest : List String) (x : String) :
    (T ++ x :: rest).getD T.length "" = x := by
  rw [List.getD_eq_getElem?_getD, List.getElem?_append_right (Nat.le_refl T.length)]
  simp

/-- Swap-and-pop at the last position is a plain pop. -/
theorem swapPop_concat_last (T : List String) (x : String) :
    swapPop (T ++ [x]) T.length = (x, T) := by
  have hlen : (T ++ [x]).length - 1 = T.length := by simp
  have hlast : (T ++ [x]).getD ((T ++ [x]).length - 1) "" = x := by
    rw [hlen]; exact getD_append_cons T [] x
  have hset : (T ++ [x]).set T.length x = T ++ [x] := by
    rw [List.set_append_right _ _ (Nat.le_refl T.length)]
    simp
  unfold swapPop
  rw [hlast, hset, List.dropLast_concat, getD_append_cons]

/-- Swap-and-pop strictly before the last position moves the last line `d`
into the hole and pops the chosen line. -/
theorem swapPop_mid (T D' : List String) (x d : String) :
    swapPop (T ++ x :: (D' ++ [d])) T.length = (x, T ++ d :: D') := by
  have hshape : T ++ x :: (D' ++ [d]) = (T ++ x :: D') ++ [d] := by simp
  have hlen : (T ++ x :: (D' ++ [d])).length - 1 = (T ++ x :: D').length := by
    simp
  have hlast : (T ++ x :: (D' ++ [d])).getD ((T ++ x :: (D' ++ [d])).length - 1) "" = d := by
    rw [hlen, hshape]
    exact getD_append_cons (T ++ x :: D') [] d
  have hset : (T ++ x :: (D' ++ [d])).set T.length d = (T ++ d :: D') ++ [d] := by
    rw [List.set_append_right _ _ (Nat.le_refl T.length)]
    simp
  unfold swapPop
  rw [hlast, hset, List.dropLast_concat, getD_append_cons]

/-- Popping after the swap removes exactly the chosen element: the popped
line together with the remaining pool is a permutation of the pool before
the draw. -/
theorem swapPop_perm (l : List String) (i : Nat) (h : i < l.length) :
    ((swapPop l i).1 :: (swapPop l i).2).Perm l := by
  obtain ⟨T, x, rest, rfl, rfl⟩ := exists_split l i h
  rcases List.eq_nil_or_concat rest with rfl | ⟨D', d, rfl⟩
  · rw [swapPop_concat_last]
    have base : (T ++ [x]).Perm (x :: T) := by
      simpa using @List.perm_middle String x T []
    exact base.symm
  · rw [List.concat_eq_append, swapPop_mid]
    have p1 : (T ++ x :: (D' ++ [d])).Perm (x :: (T ++ (D' ++ [d]))) :=
      List.perm_middle
    have p2 : (d :: D').Perm (D' ++ [d]) := by
      simpa using (@List.perm_middle String d D' []).symm
    exact (List.Perm.cons x (List.Perm.append_left T p2)).trans p1.symm

/-- Swap-and-pop shrinks the pool by one. -/
theorem swapPop_length (l : List String) (i : Nat) :
    (swapPop l i).2.length = l.length - 1 := by
  simp [swapPop]

/-- The sampling loop returns `k` lines and leaves `length - k`. -/
theorem sampleGo_length (k : Nat) :
    ∀ (l : List String) (rs : List Nat), k ≤ l.length →
      (sampleGo k l rs).1.length = k ∧
      (sampleGo k l rs).2.length = l.length - k := by
  induction k with
  | zero => intro l rs _; simp [sampleGo]
  | succ k ih =>
    intro l rs h
    have hl : 0 < l.length := lt_of_lt_of_le (Nat.succ_pos k) h
    have hlen : (swapPop l (rs.headD 0 % l.length)).2.length = l.length - 1 :=
      swapPop_length l _
    have hk : k ≤ (swapPop l (rs.headD 0 % l.length)).2.length := by omega
    have := ih (swapPop l (rs.headD 0 % l.length)).2 rs.tail hk
    simp only [sampleGo]
    refine ⟨?_, ?_⟩
    · rw [List.length_cons, this.1]
    · rw [this.2, hlen]; omega

/-- The sampling loop only redistributes the pool: sampled lines followed by
the remaining pool form a permutation of the original pool. -/
theorem sampleGo_perm (k : Nat) :
    ∀ (l : List String) (rs : List Nat), k ≤ l.length →
      ((sampleGo k l rs).1 ++ (sampleGo k l rs).2).Perm l := by
  induction k with
  | zero => intro l rs _; simp [sampleGo]
  | succ k ih =>
    intro l rs h
    have hl : 0 < l.length := lt_of_lt_of_le (Nat.succ_pos k) h
    have hi : rs.headD 0 % l.length < l.length := Nat.mod_lt _ hl
    have hswap := swapPop_perm l _ hi
    have hlen : (swapPop l (rs.headD 0 % l.length)).2.length = l.length - 1 :=
      swapPop_length l _
    have hk : k ≤ (swapPop l (rs.headD 0 % l.length)).2.length := by omega
    have hih := ih (swapPop l (rs.headD 0 % l.length)).2 rs.tail hk
    simp only [sampleGo]
    exact (List.Perm.cons _ hih).trans hswap

/-- A full cache rejects the flush and keeps the state. -/
theorem flush_batch_full (c : LineCache) (b : List String)
    (h : MAX_CACHE_LINES ≤ c.lines.length) :
    c.flush_batch b = (c, Except.error "Cache limit reached.") := by
  simp only [LineCache.flush_batch]
  rw [if_pos (by omega)]

/-- A cache with room appends the truncated batch. -/
theorem flush_batch_room (c : LineCache) (b : List String)
    (h : c.lines.length < MAX_CACHE_LINES) :
    c.flush_batch b =
      ({ c with
          lines := c.lines ++ b.take (MAX_CACHE_LINES - c.lines.length),
          total_loaded :=
            c.total_loaded + (b.take (MAX_CACHE_LINES - c.lines.length)).length },
       Except.ok (b.take (MAX_CACHE_LINES - c.lines.length)).length) := by
  have htn : ((MAX_CACHE_LINES : Int) - c.lines.length).toNat
      = MAX_CACHE_LINES - c.lines.length := by omega
  simp only [LineCache.flush_batch]
  rw [if_neg (by omega), htn]

/-- A nonempty batch that fits entirely is appended whole. -/
theorem flush_batch_fits (c : LineCache) (b : List String) (hb : b ≠ [])
    (h : c.lines.length + b.length ≤ MAX_CACHE_LINES) :
    c.flush_batch b =
      ({ c with lines := c.lines ++ b, total_loaded := c.total_loaded + b.length },
       Except.ok b.length) := by
  have hpos : 0 < b.length := List.length_pos.mpr hb
  rw [flush_batch_room c b (by omega), List.take_of_length_le (by omega)]

/-- A raising flush leaves the state untouched. -/
theorem flush_batch_err (c : LineCache) (b : List String) (e : String)
    (h : (c.flush_batch b).2 = Except.error e) : (c.flush_batch b).1 = c := by
  by_cases hc : MAX_CACHE_LINES ≤ c.lines.length
  · rw [flush_batch_full c b hc]
  · rw [flush_batch_room c b (by omega)] at h
    simp at h

/-- A returning flush appended some lines and counted exactly them. -/
theorem flush_batch_ok (c : LineCache) (b : List String) (c' : LineCache) (k : Nat)
    (h : c.flush_batch b = (c', Except.ok k)) :
    ∃ app, c'.lines = c.lines ++ app ∧ app.length = k ∧
      c'.total_loaded = c.total_loaded + k ∧ c'.total_sampled = c.total_sampled := by
  by_cases hc : MAX_CACHE_LINES ≤ c.lines.length
  · rw [flush_batch_full c b hc] at h
    simp at h
  · rw [flush_batch_room c b (by omega)] at h
    rw [Prod.mk.injEq, Except.ok.injEq] at h
    obtain ⟨hc', hk⟩ := h
    exact ⟨b.take (MAX_CACHE_LINES - c.lines.length),
      by rw [← hc'], hk, by rw [← hc', ← hk], by rw [← hc']⟩

/-- The flush loop only ever appends, whether it returns or raises. -/
theorem load_chunks_append (bs : List (List String)) :
    ∀ (c : LineCache) (acc : Nat),
      ∃ app, (c.load_chunks bs acc).1.lines = c.lines ++ app := by
  induction bs with
  | nil => intro c acc; exact ⟨[], by simp [LineCache.load_chunks]⟩
  | cons b bs ih =>
    intro c acc
    rcases hfb : c.flush_batch b with ⟨c1, r⟩
    rcases r with e | k
    · have hc1 : c1 = c := by
        have h2 : (c.flush_batch b).2 = Except.error e := by rw [hfb]
        have h1 := flush_batch_err c b e h2
        rw [hfb] at h1
        exact h1
      exact ⟨[], by simp [LineCache.load_chunks, hfb, hc1]⟩
    · obtain ⟨app1, happ1, _, _, _⟩ := flush_batch_ok c b c1 k hfb
      obtain ⟨app2, happ2⟩ := ih c1 (acc + k)
      refine ⟨app1 ++ app2, ?_⟩
      simp [LineCache.load_chunks, hfb, happ2, happ1]

/-- A returning flush loop reports exactly the growth of the line count and
of `_total_loaded`, and never touches `_total_sampled`. -/
theorem load_chunks_count (bs : List (List String)) :
    ∀ (c : LineCache) (acc : Nat) (c' : LineCache) (k : Nat),
      c.load_chunks bs acc = (c', Except.ok k) →
      c'.total_loaded + acc = c.total_loaded + k ∧
      c'.lines.length + acc = c.lines.length + k ∧
      c'.total_sampled = c.total_sampled := by
  induction bs with
  | nil =>
    intro c acc c' k h
    simp only [LineCache.load_chunks, Prod.mk.injEq, Except.ok.injEq] at h
    obtain ⟨rfl, rfl⟩ := h
    omega
  | cons b bs ih =>
    intro c acc c' k h
    rcases hfb : c.flush_batch b with ⟨c1, r⟩
    rcases r with e | k0
    · simp only [LineCache.load_chunks, hfb] at h
      simp at h
    · simp only [LineCache.load_chunks, hfb] at h
      obtain ⟨h1, h2, h3⟩ := ih c1 (acc + k0) c' k h
      obtain ⟨app, happ, hlen0, hload0, hsamp0⟩ := flush_batch_ok c b c1 k0 hfb
      have hlen1 : c1.lines.length = c.lines.length + k0 := by
        rw [happ]; simp [hlen0]
      omega

/-- Conservation: one flush keeps `len lines + totalSampled = totalLoaded`. -/
theorem flush_batch_conserve (c : LineCache) (b : List String)
    (h : c.lines.length + c.total_sampled = c.total_loaded) :
    (c.flush_batch b).1.lines.length + (c.flush_batch b).1.total_sampled
      = (c.flush_batch b).1.total_loaded := by
  simp only [LineCache.flush_batch]
  split
  · exact h
  · simp
    omega

/-- Conservation through the whole flush loop, raising or not. -/
theorem load_chunks_conserve (bs : List (List String)) :
    ∀ (c : LineCache) (acc : Nat),
      c.lines.length + c.total_sampled = c.total_loaded →
      (c.load_chunks bs acc).1.lines.length + (c.load_chunks bs acc).1.total_sampled
        = (c.load_chunks bs acc).1.total_loaded := by
  induction bs with
  | nil => intro c acc h; simpa [LineCache.load_chunks] using h
  | cons b bs ih =>
    intro c acc h
    have hflush := flush_batch_conserve c b h
    rcases hfb : c.flush_batch b with ⟨c1, r⟩
    rw [hfb] at hflush
    rcases r with e | k0
    · simpa [LineCache.load_chunks, hfb] using hflush
    · simpa [LineCache.load_chunks, hfb] using ih c1 (acc + k0) hflush

theorem chunksOf_nil (c : Nat) : chunksOf c ([] : List α) = [] := by
  rw [chunksOf]
  simp

theorem chunksOf_cons_of (c : Nat) (l : List α) (hc : c ≠ 0) (hl : l ≠ []) :
    chunksOf c l = l.take c :: chunksOf c (l.drop c) := by
  rw [chunksOf, dif_neg (by simp [hc, hl])]

/-- Splitting into chunks loses and reorders nothing. -/
theorem chunksOf_join (cs : Nat) (hcs : cs ≠ 0) (l : List α) :
    (chunksOf cs l).flatten = l := by
  suffices h : ∀ (n : Nat) (l : List α), l.length ≤ n → (chunksOf cs l).flatten = l from
    h l.length l (Nat.le_refl _)
  intro n
  induction n with
  | zero =>
    intro l hl
    have : l = [] := List.eq_nil_of_length_eq_zero (Nat.le_zero.mp hl)
    subst this
    rw [chunksOf_nil]
    rfl
  | succ n ih =>
    intro l hl
    rcases eq_or_ne l [] with rfl | hne
    · rw [chunksOf_nil]; rfl
    · rw [chunksOf_cons_of cs l hcs hne]
      have h1 : 0 < l.length := List.length_pos.mpr hne
      have h2 : 0 < cs := Nat.pos_of_ne_zero hcs
      have hdrop : (l.drop cs).length ≤ n := by
        simp only [List.length_drop]
        omega
      rw [List.flatten_cons, ih (l.drop cs) hdrop, List.take_append_drop]

/-- Every chunk the loop flushes is nonempty. -/
theorem chunksOf_ne_nil (cs : Nat) (hcs : cs ≠ 0) (l : List α) :
    ∀ b ∈ chunksOf cs l, b ≠ [] := by
  suffices h : ∀ (n : Nat) (l : List α), l.length ≤ n → ∀ b ∈ chunksOf cs l, b ≠ [] from
    h l.length l (Nat.le_refl _)
  intro n
  induction n with
  | zero =>
    intro l hl b hb
    have : l = [] := List.eq_nil_of_length_eq_zero (Nat.le_zero.mp hl)
    subst this
    rw [chunksOf_nil] at hb
    simp at hb
  | succ n ih =>
    intro l hl b hb
    rcases eq_or_ne l [] with rfl | hne
    · rw [chunksOf_nil] at hb
      simp at hb
    · rw [chunksOf_cons_of cs l hcs hne] at hb
      have h1 : 0 < l.length := List.length_pos.mpr hne
      have h2 : 0 < cs := Nat.pos_of_ne_zero hcs
      rcases List.mem_cons.mp hb with rfl | hb'
      · rw [Ne, List.take_eq_nil_iff]
        push_neg
        exact ⟨hcs, hne⟩
      · have hdrop : (l.drop cs).length ≤ n := by
          simp only [List.length_drop]
          omega
        exact ih (l.drop cs) hdrop b hb'

/-- The chunks of `l` measure `l`. -/
theorem chunksOf_sum_length (cs : Nat) (hcs : cs ≠ 0) (l : List α) :
    ((chunksOf cs l).map List.length).sum = l.length := by
  rw [← List.length_flatten, chunksOf_join cs hcs]

/-- A flush loop whose batches are nonempty and fit entirely appends them
all and reports their total length. -/
theorem load_chunks_full (bs : List (List String)) :
    ∀ (c : LineCache) (acc : Nat),
      (∀ b ∈ bs, b ≠ []) →
      c.lines.length + (bs.map List.length).sum ≤ MAX_CACHE_LINES →
      c.load_chunks bs acc =
        ({ c with
            lines := c.lines ++ bs.flatten,
            total_loaded := c.total_loaded + (bs.map List.length).sum },
         Except.ok (acc + (bs.map List.length).sum)) := by
  induction bs with
  | nil =>
    intro c acc _ _
    simp [LineCache.load_chunks]
  | cons b bs ih =>
    intro c acc hne hcap
    have hb : b ≠ [] := hne b (List.mem_cons_self b bs)
    simp only [List.map_cons, List.sum_cons] at hcap
    have hfit : c.lines.length + b.length ≤ MAX_CACHE_LINES := by omega
    simp only [LineCache.load_chunks, flush_batch_fits c b hb hfit]
    rw [ih _ (acc + b.length) (fun x hx => hne x (List.mem_cons_of_mem b hx))
      (by simp; omega)]
    simp only [List.flatten_cons, List.map_cons, List.sum_cons, Prod.mk.injEq,
      LineCache.mk.injEq, Except.ok.injEq, List.append_assoc]
    exact ⟨⟨trivial, by omega, trivial⟩, by omega⟩

/-- A load whose stripped lines all fit appends them all, in order, and
returns the full line count. -/
theorem load_ok_full (c : LineCache) (raw : List String) (cs : Nat) (hcs : cs ≠ 0)
    (hcap : c.lines.length + raw.length ≤ MAX_CACHE_LINES) :
    c.load raw cs =
      ({ c with
          lines := c.lines ++ raw.map stripLine,
          total_loaded := c.total_loaded + raw.length },
       Except.ok raw.length) := by
  unfold LineCache.load
  have hsum : ((chunksOf cs (raw.map stripLine)).map List.length).sum = raw.length := by
    rw [chunksOf_sum_length cs hcs]
    simp
  rw [load_chunks_full _ c 0 (chunksOf_ne_nil cs hcs _) (by rw [hsum]; exact hcap)]
  rw [hsum, chunksOf_join cs hcs]
  simp

/-- What a returning `sample` call computed, in terms of the loop. -/
theorem sample_ok_elim (c : LineCache) (n : Int) (rs : List Nat) (c' : LineCache)
    (out : List String) (h : c.sample n rs = (c', Except.ok out)) :
    c'.lines = (sampleGo (min n.toNat c.lines.length) c.lines rs).2 ∧
    out = (sampleGo (min n.toNat c.lines.length) c.lines rs).1 ∧
    c'.total_loaded = c.total_loaded ∧
    c'.total_sampled = c.total_sampled + min n.toNat c.lines.length := by
  simp only [LineCache.sample] at h
  split_ifs at h
  · simp at h
  · simp at h
  · rw [Prod.mk.injEq, Except.ok.injEq] at h
    obtain ⟨hc, hout⟩ := h
    exact ⟨by rw [← hc], hout.symm, by rw [← hc], by rw [← hc]⟩

/-- The number of draws a returning `sample` makes never exceeds the pool. -/
theorem sample_k_le (c : LineCache) (n : Int) :
    min n.toNat c.lines.length ≤ c.lines.length :=
  Nat.min_le_right _ _

/-- Sampling preserves `len lines + totalSampled = totalLoaded`. -/
theorem sample_conserve (c : LineCache) (n : Int) (rs : List Nat)
    (h : c.lines.length + c.total_sampled = c.total_loaded) :
    (c.sample n rs).1.lines.length + (c.sample n rs).1.total_sampled
      = (c.sample n rs).1.total_loaded := by
  simp only [LineCache.sample]
  split_ifs
  · exact h
  · exact h
  · have hk := sample_k_le c n
    have hlen := (sampleGo_length (min n.toNat c.lines.length) c.lines rs hk).2
    simp only [hlen]
    omega

/-- Loading preserves `len lines + totalSampled = totalLoaded`, also when it
raises partway. -/
theorem load_conserve (c : LineCache) (raw : List String) (cs : Nat)
    (h : c.lines.length + c.total_sampled = c.total_loaded) :
    (c.load raw cs).1.lines.length + (c.load raw cs).1.total_sampled
      = (c.load raw cs).1.total_loaded :=
  load_chunks_conserve _ c 0 h

/-- Every reachable pool state balances its books. -/
theorem runOps_conserve (ops : List Op) :
    (runOps ops).lines.length + (runOps ops).total_sampled
      = (runOps ops).total_loaded := by
  suffices h : ∀ (ops : List Op) (c : LineCache),
      c.lines.length + c.total_sampled = c.total_loaded →
      (ops.foldl Op.step c).lines.length + (ops.foldl Op.step c).total_sampled
        = (ops.foldl Op.step c).total_loaded from
    h ops LineCache.init rfl
  intro ops
  induction ops with
  | nil => intro c h; exact h
  | cons op ops ih =>
    intro c h
    rcases op with raw | ⟨n, rs⟩
    · exact ih _ (load_conserve c raw DEFAULT_CHUNK_SIZE h)
    · exact ih _ (sample_conserve c n rs h)

/-! ## The claims -/

/-- C1.  Conservation invariant I1: starting from the empty pool, after any
sequence of load and sample operations, the number of lines currently held
equals `totalLoaded - totalSampled`. -/
theorem conservation_I1 (ops : List Op) :
    (runOps ops).lines.length
      = (runOps ops).total_loaded - (runOps ops).total_sampled := by
  have h := runOps_conserve ops
  omega

/-- C5.  Sample consumption (I2): for every successful Sample call, the
multiset of lines after the call plus the multiset of returned lines equals
the multiset before, and `totalSampled` grows by exactly the number
returned. -/
theorem sample_consumption (c : LineCache) (n : Int) (rs : List Nat)
    (c' : LineCache) (out : List String)
    (h : c.sample n rs = (c', Except.ok out)) :
    ((c'.lines : Multiset String) + (out : Multiset String)
        = (c.lines : Multiset String)) ∧
    c'.total_sampled = c.total_sampled + out.length := by
  obtain ⟨hl, ho, _, hsamp⟩ := sample_ok_elim c n rs c' out h
  have hk := sample_k_le c n
  have hperm := sampleGo_perm (min n.toNat c.lines.length) c.lines rs hk
  have hlen := (sampleGo_length (min n.toNat c.lines.length) c.lines rs hk).1
  constructor
  · rw [hl, ho, add_comm, Multiset.coe_add]
    exact Multiset.coe_eq_coe.mpr hperm
  · rw [hsamp, ho, hlen]

/-- Witness for C5 at the pool `["a", "b"]`, `n = 1`, random stream `[0]`. -/
theorem sample_consumption_witness :
    ((↑(["b"] : List String) : Multiset String)
        + (↑(["a"] : List String) : Multiset String)
      = (↑(["a", "b"] : List String) : Multiset String)) ∧ (1 : Nat) = 0 + 1 :=
  sample_consumption ⟨["a", "b"], 2, 0⟩ 1 [0] ⟨["b"], 2, 1⟩ ["a"] rfl

/-- C3 counterexample: a pool holding the string value `"a"` twice returns
`["a", "a"]` from one Sample call — the returned lines are not pairwise
distinct as string values. -/
theorem sample_dup_values_counterexample :
    (LineCache.sample ⟨["a", "a"], 2, 0⟩ 2 [0, 0]).2 = Except.ok ["a", "a"] ∧
    ¬ List.Pairwise (fun x y => x ≠ y) ["a", "a"] := by
  constructor
  · rfl
  · decide

/-- C3 amended: the lines returned by one Sample call occupy pairwise
distinct pool slots (each returned line is consumed from the pool, see
`sample_consumption`); when the pool's string values are pairwise distinct,
the returned lines are pairwise distinct. -/
theorem sample_nodup_of_nodup (c : LineCache) (n : Int) (rs : List Nat)
    (c' : LineCache) (out : List String)
    (hnd : List.Pairwise (fun x y => x ≠ y) c.lines)
    (h : c.sample n rs = (c', Except.ok out)) :
    List.Pairwise (fun x y => x ≠ y) out := by
  obtain ⟨_, ho, _, _⟩ := sample_ok_elim c n rs c' out h
  have hk := sample_k_le c n
  have hperm := sampleGo_perm (min n.toNat c.lines.length) c.lines rs hk
  have hnodup : ((sampleGo (min n.toNat c.lines.length) c.lines rs).1
      ++ (sampleGo (min n.toNat c.lines.length) c.lines rs).2).Nodup :=
    (List.Perm.nodup_iff hperm).mpr hnd
  rw [ho]
  exact hnodup.of_append_left

/-- Witness for C3's amended claim at the distinct pool `["a", "b"]`. -/
theorem sample_nodup_of_nodup_witness :
    List.Pairwise (fun x y => x ≠ y) ["a", "b"] :=
  sample_nodup_of_nodup ⟨["a", "b"], 2, 0⟩ 2 [0, 0] ⟨[], 2, 2⟩ ["a", "b"]
    (by decide) rfl

/-- C2 counterexample: on the empty pool (size 0), `Sample 1000001` is
requested with `n` greater than the pool size, yet the call fails — the
Pool itself enforces the upper bound `MAX_SAMPLE_SIZE` on `n`. -/
theorem overshoot_unbounded_counterexample :
    ((LineCache.init.lines.length : Int) < 1000001) ∧
    (LineCache.init.sample 1000001 []).2
      = Except.error "n too large. Limit is MAX_SAMPLE_SIZE." := by
  constructor
  · decide
  · rfl

/-- C2 amended: for every `n` greater than the pool size *and at most
`MAX_SAMPLE_SIZE`*, Sample does not fail; it returns exactly the pool's
worth of lines and empties the pool.  (For `n > MAX_SAMPLE_SIZE` the call
is rejected, see `overshoot_unbounded_counterexample`.) -/
theorem sample_overshoot_within_limit (c : LineCache) (n : Int) (rs : List Nat)
    (hgt : (c.lines.length : Int) < n) (hle : n ≤ (MAX_SAMPLE_SIZE : Int)) :
    ∃ out, c.sample n rs
        = ({ c with
              lines := [],
              total_sampled := c.total_sampled + c.lines.length },
           Except.ok out) ∧ out.Perm c.lines := by
  have h0 : ¬ n < 0 := by omega
  have h2 : ¬ (MAX_SAMPLE_SIZE : Int) < n := not_lt.mpr hle
  have hkeq : min n.toNat c.lines.length = c.lines.length := by omega
  have hrest : (sampleGo c.lines.length c.lines rs).2 = [] :=
    List.eq_nil_of_length_eq_zero
      (by rw [(sampleGo_length c.lines.length c.lines rs (Nat.le_refl _)).2]; omega)
  have hperm := sampleGo_perm c.lines.length c.lines rs (Nat.le_refl _)
  refine ⟨(sampleGo c.lines.length c.lines rs).1, ?_, ?_⟩
  · simp only [LineCache.sample, if_neg h0, if_neg h2, hkeq, hrest]
  · simpa [hrest] using hperm

/-- Witness for C2's amended claim: overshooting a one-line pool with
`n = 5` drains it. -/
theorem sample_overshoot_within_limit_witness :
    ∃ out, LineCache.sample ⟨["a"], 1, 0⟩ 5 []
        = (⟨[], 1, 0 + 1⟩, Except.ok out) ∧ out.Perm ["a"] :=
  sample_overshoot_within_limit ⟨["a"], 1, 0⟩ 5 [] (by decide) (by decide)

/-- C6.  Negative sample count: for every `n < 0`, Sample is rejected
synchronously with an error and the state is unchanged. -/
theorem sample_negative_rejected (c : LineCache) (n : Int) (rs : List Nat)
    (h : n < 0) :
    c.sample n rs = (c, Except.error "n must be >= 0") := by
  simp only [LineCache.sample, if_pos h]

/-- Witness for C6 at `n = -1`. -/
theorem sample_negative_rejected_witness :
    LineCache.sample ⟨["a"], 1, 0⟩ (-1) []
      = (⟨["a"], 1, 0⟩, Except.error "n must be >= 0") :=
  sample_negative_rejected ⟨["a"], 1, 0⟩ (-1) [] (by decide)

/-- C7.  `Sample 0` is a no-op read: it succeeds, returns the empty
sequence and leaves the whole state (lines, both counters) unchanged. -/
theorem sample_zero_noop (c : LineCache) (rs : List Nat) :
    c.sample 0 rs = (c, Except.ok []) := by
  simp only [LineCache.sample]
  rw [if_neg (by omega), if_neg (by omega)]
  simp [sampleGo]

/-- C9.  Clear frame: Clear empties `lines`, returns the prior size, and
leaves both lifetime counters untouched. -/
theorem clear_frame (c : LineCache) :
    c.clear.1.lines = [] ∧ c.clear.2 = c.lines.length ∧
    c.clear.1.total_loaded = c.total_loaded ∧
    c.clear.1.total_sampled = c.total_sampled :=
  ⟨rfl, rfl, rfl, rfl⟩

/-- C10.  Load's return value is accurate: whenever `load` returns normally
(truncation included), the returned count equals both the increase of
`totalLoaded` and the increase of the line count, and `totalSampled` is
untouched. -/
theorem load_reported_count (c : LineCache) (raw : List String) (cs : Nat)
    (c' : LineCache) (k : Nat) (h : c.load raw cs = (c', Except.ok k)) :
    c'.total_loaded = c.total_loaded + k ∧
    c'.lines.length = c.lines.length + k ∧
    c'.total_sampled = c.total_sampled := by
  unfold LineCache.load at h
  obtain ⟨h1, h2, h3⟩ := load_chunks_count _ c 0 c' k h
  exact ⟨by omega, by omega, h3⟩

/-- Witness for C10: loading one line into the empty pool reports 1. -/
theorem load_reported_count_witness :
    (⟨["x"], 1, 0⟩ : LineCache).total_loaded
      = (⟨[], 0, 0⟩ : LineCache).total_loaded + 1 ∧
    (⟨["x"], 1, 0⟩ : LineCache).lines.length
      = (⟨[], 0, 0⟩ : LineCache).lines.length + 1 ∧
    (⟨["x"], 1, 0⟩ : LineCache).total_sampled
      = (⟨[], 0, 0⟩ : LineCache).total_sampled := by
  have hmap : (["x"] : List String).map stripLine = ["x"] := by decide
  have h : LineCache.load ⟨[], 0, 0⟩ ["x"] 50000
      = (⟨["x"], 1, 0⟩, Except.ok 1) := by
    rw [load_ok_full ⟨[], 0, 0⟩ ["x"] 50000 (by norm_num)
      (by simp [MAX_CACHE_LINES])]
    rw [hmap]
    simp
  exact load_reported_count ⟨[], 0, 0⟩ ["x"] 50000 ⟨["x"], 1, 0⟩ 1 h

/-- C4 amended: a Load whose raw lines fit in a single batch (at most
`chunk_size` lines, as well as any Load that fails before its first flush)
leaves the state exactly as it was when it is rejected; a multi-batch Load
that is rejected partway keeps the batches flushed before the failure (see
`load_partial_append_counterexample`). -/
theorem load_atomic_single_batch (c : LineCache) (raw : List String) (cs : Nat)
    (e : String) (hlen : raw.length ≤ cs)
    (herr : (c.load raw cs).2 = Except.error e) :
    (c.load raw cs).1 = c := by
  unfold LineCache.load at herr ⊢
  by_cases hcs : cs = 0
  · subst hcs
    have hnil : chunksOf 0 (raw.map stripLine) = [] := by
      rw [chunksOf]
      simp
    rw [hnil] at herr
    simp [LineCache.load_chunks] at herr
  by_cases hraw : raw.map stripLine = []
  · rw [hraw, chunksOf_nil] at herr
    simp [LineCache.load_chunks] at herr
  · have hchunks : chunksOf cs (raw.map stripLine) = [raw.map stripLine] := by
      rw [chunksOf_cons_of cs _ hcs hraw,
        List.take_of_length_le (by simp [hlen]),
        List.drop_eq_nil_of_le (by simp [hlen]), chunksOf_nil]
    rw [hchunks] at herr ⊢
    rcases hfb : c.flush_batch (raw.map stripLine) with ⟨c1, r⟩
    rcases r with e' | k
    · have h2 : (c.flush_batch (raw.map stripLine)).2 = Except.error e' := by
        rw [hfb]
      have h1 := flush_batch_err c _ e' h2
      rw [hfb] at h1
      simp [LineCache.load_chunks, hfb, h1]
    · simp [LineCache.load_chunks, hfb] at herr

/-- One-batch flush loop that raises: it forwards the flush result. -/
theorem load_chunks_single_err (c c1 : LineCache) (b : List String) (e : String)
    (h : c.flush_batch b = (c1, Except.error e)) :
    c.load_chunks [b] 0 = (c1, Except.error e) := by
  simp [LineCache.load_chunks, h]

/-- One-batch flush loop that returns: it forwards the flush result. -/
theorem load_chunks_single_ok (c c1 : LineCache) (b : List String) (k : Nat)
    (h : c.flush_batch b = (c1, Except.ok k)) :
    c.load_chunks [b] 0 = (c1, Except.ok k) := by
  simp [LineCache.load_chunks, h]

/-- Two-batch flush loop whose second flush raises: the first flush's
mutation survives. -/
theorem load_chunks_pair_err (c c1 c2 : LineCache) (b1 b2 : List String)
    (k1 : Nat) (e : String)
    (h1 : c.flush_batch b1 = (c1, Except.ok k1))
    (h2 : c1.flush_batch b2 = (c2, Except.error e)) :
    c.load_chunks [b1, b2] 0 = (c2, Except.error e) := by
  simp [LineCache.load_chunks, h1, h2]

/-- The single-line load on a full cache is rejected (shared by the C4
witness). -/
theorem full_cache_load_err :
    LineCache.load ⟨List.replicate 10000000 "a", 10000000, 0⟩ ["b"] 50000
      = (⟨List.replicate 10000000 "a", 10000000, 0⟩,
         Except.error "Cache limit reached.") := by
  have hmap : (["b"] : List String).map stripLine = ["b"] := by decide
  have hchunks : chunksOf 50000 (["b"] : List String) = [["b"]] := by
    rw [chunksOf_cons_of 50000 _ (by norm_num) (by simp),
      List.take_of_length_le (by norm_num),
      List.drop_eq_nil_of_le (by norm_num), chunksOf_nil]
  have h0 : (⟨List.replicate 10000000 "a", 10000000, 0⟩ : LineCache).lines
      = List.replicate 10000000 "a" := rfl
  have hlen : MAX_CACHE_LINES
      ≤ (⟨List.replicate 10000000 "a", 10000000, 0⟩ : LineCache).lines.length := by
    rw [h0, List.length_replicate]
    exact Nat.le_refl MAX_CACHE_LINES
  have hfull := flush_batch_full _ ["b"] hlen
  unfold LineCache.load
  rw [hmap, hchunks]
  exact load_chunks_single_err _ _ _ _ hfull

/-- Witness for C4's amended claim: a rejected single-batch load on a full
cache changes nothing. -/
theorem load_atomic_single_batch_witness :
    (["b"] : List String).length ≤ 50000 ∧
    (LineCache.load ⟨List.replicate 10000000 "a", 10000000, 0⟩ ["b"] 50000).1
      = ⟨List.replicate 10000000 "a", 10000000, 0⟩ := by
  refine ⟨by norm_num, ?_⟩
  exact load_atomic_single_batch ⟨List.replicate 10000000 "a", 10000000, 0⟩
    ["b"] 50000 "Cache limit reached." (by norm_num)
    (by rw [full_cache_load_err])

/-- C4 counterexample: from a pool one line short of `MAX_CACHE_LINES`, a
load of 50001 raw lines (two batches at the default chunk size 50000) is
rejected with "Cache limit reached.", yet its first batch was already
appended: `totalLoaded` moved from 9999999 to 10000000, so the pool state
is not as it was before the rejected call. -/
theorem load_partial_append_counterexample :
    (LineCache.load ⟨List.replicate 9999999 "a", 9999999, 0⟩
        (List.replicate 50001 "b") 50000).2
      = Except.error "Cache limit reached." ∧
    (LineCache.load ⟨List.replicate 9999999 "a", 9999999, 0⟩
        (List.replicate 50001 "b") 50000).1.total_loaded = 10000000 ∧
    (9999999 : Nat) ≠ 10000000 := by
  have hb : stripLine "b" = "b" := by decide
  have hmap : (List.replicate 50001 "b").map stripLine = List.replicate 50001 "b" := by
    rw [List.map_replicate, hb]
  have hne1 : (List.replicate 50001 "b" : List String) ≠ [] :=
    List.length_pos.mp (by rw [List.length_replicate]; norm_num)
  have hne2 : (List.replicate 1 "b" : List String) ≠ [] :=
    List.length_pos.mp (by rw [List.length_replicate]; norm_num)
  have e1 : min 50000 50001 = 50000 := by norm_num
  have e2 : (50001 : Nat) - 50000 = 1 := by norm_num
  have e3 : min 50000 1 = 1 := by norm_num
  have e4 : (1 : Nat) - 50000 = 0 := by norm_num
  have hchunks : chunksOf 50000 (List.replicate 50001 "b")
      = [List.replicate 50000 "b", List.replicate 1 "b"] := by
    rw [chunksOf_cons_of 50000 _ (by norm_num) hne1, List.take_replicate,
      List.drop_replicate, e1, e2,
      chunksOf_cons_of 50000 _ (by norm_num) hne2, List.take_replicate,
      List.drop_replicate, e3, e4, List.replicate_zero, chunksOf_nil]
  have hlines0 : (⟨List.replicate 9999999 "a", 9999999, 0⟩ : LineCache).lines
      = List.replicate 9999999 "a" := rfl
  have hlt0 : (⟨List.replicate 9999999 "a", 9999999, 0⟩ : LineCache).lines.length
      < MAX_CACHE_LINES := by
    rw [hlines0, List.length_replicate]
    decide
  have hsub : MAX_CACHE_LINES
      - (⟨List.replicate 9999999 "a", 9999999, 0⟩ : LineCache).lines.length = 1 := by
    rw [hlines0, List.length_replicate]
    decide
  have htake : (List.replicate 50000 "b").take 1 = ["b"] := by
    rw [List.take_replicate]
    norm_num
  have hflush1 : (⟨List.replicate 9999999 "a", 9999999, 0⟩ : LineCache).flush_batch
        (List.replicate 50000 "b")
      = (⟨List.replicate 9999999 "a" ++ ["b"], 10000000, 0⟩, Except.ok 1) := by
    rw [flush_batch_room _ _ hlt0, hsub, htake]
    rfl
  have h1 : (⟨List.replicate 9999999 "a" ++ ["b"], 10000000, 0⟩ : LineCache).lines
      = List.replicate 9999999 "a" ++ ["b"] := rfl
  have hlen1 : MAX_CACHE_LINES
      ≤ (⟨List.replicate 9999999 "a" ++ ["b"], 10000000, 0⟩ : LineCache).lines.length := by
    rw [h1, List.length_append, List.length_replicate]
    decide
  have hflush2 := flush_batch_full
    (⟨List.replicate 9999999 "a" ++ ["b"], 10000000, 0⟩ : LineCache)
    (List.replicate 1 "b") hlen1
  have hload : LineCache.load ⟨List.replicate 9999999 "a", 9999999, 0⟩
        (List.replicate 50001 "b") 50000
      = (⟨List.replicate 9999999 "a" ++ ["b"], 10000000, 0⟩,
         Except.error "Cache limit reached.") := by
    unfold LineCache.load
    rw [hmap, hchunks]
    exact load_chunks_pair_err _ _ _ _ _ _ _ hflush1 hflush2
  rw [hload]
  exact ⟨rfl, rfl, by norm_num⟩

/-- C8 amended: Load only ever appends (never overwrites), and two
sequential successful Loads of `L1`- and `L2`-line files from the empty
pool yield size and `totalLoaded` `L1 + L2` *provided the capacity limit
does not truncate*, i.e. `L1 + L2 ≤ MAX_CACHE_LINES` (see
`load_sum_counterexample` for the truncated case). -/
theorem load_append_only (c : LineCache) (l1 l2 : List String) (cs : Nat)
    (hcs : cs ≠ 0) (hcap : l1.length + l2.length ≤ MAX_CACHE_LINES) :
    (∃ app, ((c.load l1 cs).1).lines = c.lines ++ app) ∧
    ((LineCache.init.load l1 cs).1.load l2 cs).1.lines.length
      = l1.length + l2.length ∧
    ((LineCache.init.load l1 cs).1.load l2 cs).1.total_loaded
      = l1.length + l2.length := by
  refine ⟨load_chunks_append _ c 0, ?_⟩
  have h1 : LineCache.init.load l1 cs
      = (⟨l1.map stripLine, l1.length, 0⟩, Except.ok l1.length) := by
    rw [load_ok_full LineCache.init l1 cs hcs (by simp [LineCache.init]; omega)]
    simp [LineCache.init]
  rw [h1]
  have h2 : (⟨l1.map stripLine, l1.length, 0⟩ : LineCache).load l2 cs
      = (⟨l1.map stripLine ++ l2.map stripLine, l1.length + l2.length, 0⟩,
         Except.ok l2.length) := by
    rw [load_ok_full _ l2 cs hcs (by simp; omega)]
  rw [h2]
  simp

/-- Witness for C8's amended claim with two one-line loads. -/
theorem load_append_only_witness :
    (∃ app, ((LineCache.load ⟨["z"], 1, 0⟩ ["x"] 50000).1).lines = ["z"] ++ app) ∧
    ((LineCache.init.load ["x"] 50000).1.load ["y"] 50000).1.lines.length = 1 + 1 ∧
    ((LineCache.init.load ["x"] 50000).1.load ["y"] 50000).1.total_loaded = 1 + 1 :=
  load_append_only ⟨["z"], 1, 0⟩ ["x"] ["y"] 50000 (by norm_num)
    (by norm_num [MAX_CACHE_LINES])

/-- C8 counterexample: from the empty pool, a successful 9999999-line load
followed by a successful 2-line load (both return normally, the second
truncated to 1 line by `MAX_CACHE_LINES`) ends with 10000000 lines, not
`L1 + L2 = 10000001`. -/
theorem load_sum_counterexample :
    (LineCache.init.load (List.replicate 9999999 "a") 50000).2
      = Except.ok 9999999 ∧
    ((LineCache.init.load (List.replicate 9999999 "a") 50000).1.load
        ["b", "c"] 50000).2 = Except.ok 1 ∧
    ((LineCache.init.load (List.replicate 9999999 "a") 50000).1.load
        ["b", "c"] 50000).1.lines.length = 10000000 ∧
    (9999999 : Nat) + 2 ≠ 10000000 := by
  have ha : stripLine "a" = "a" := by decide
  have h1 : LineCache.init.load (List.replicate 9999999 "a") 50000
      = (⟨List.replicate 9999999 "a", 9999999, 0⟩, Except.ok 9999999) := by
    rw [load_ok_full LineCache.init _ 50000 (by norm_num)
        (by rw [List.length_replicate]; decide),
      List.map_replicate, ha, List.length_replicate]
    rfl
  have hbc : (["b", "c"] : List String).map stripLine = ["b", "c"] := by decide
  have hchunks2 : chunksOf 50000 (["b", "c"] : List String) = [["b", "c"]] := by
    rw [chunksOf_cons_of 50000 _ (by norm_num) (by simp),
      List.take_of_length_le (by norm_num),
      List.drop_eq_nil_of_le (by norm_num), chunksOf_nil]
  have hlines0 : (⟨List.replicate 9999999 "a", 9999999, 0⟩ : LineCache).lines
      = List.replicate 9999999 "a" := rfl
  have hlt0 : (⟨List.replicate 9999999 "a", 9999999, 0⟩ : LineCache).lines.length
      < MAX_CACHE_LINES := by
    rw [hlines0, List.length_replicate]
    decide
  have hsub : MAX_CACHE_LINES
      - (⟨List.replicate 9999999 "a", 9999999, 0⟩ : LineCache).lines.length = 1 := by
    rw [hlines0, List.length_replicate]
    decide
  have hflush : (⟨List.replicate 9999999 "a", 9999999, 0⟩ : LineCache).flush_batch
        ["b", "c"]
      = (⟨List.replicate 9999999 "a" ++ ["b"], 10000000, 0⟩, Except.ok 1) := by
    rw [flush_batch_room _ _ hlt0, hsub]
    rfl
  have h2 : (⟨List.replicate 9999999 "a", 9999999, 0⟩ : LineCache).load
        ["b", "c"] 50000
      = (⟨List.replicate 9999999 "a" ++ ["b"], 10000000, 0⟩, Except.ok 1) := by
    unfold LineCache.load
    rw [hbc, hchunks2]
    exact load_chunks_single_ok _ _ _ _ hflush
  refine ⟨by rw [h1], ?_, ?_, by norm_num⟩
  · rw [h1, h2]
  · rw [h1, h2]
    have h3 : (⟨List.replicate 9999999 "a" ++ ["b"], 10000000, 0⟩ : LineCache).lines
        = List.replicate 9999999 "a" ++ ["b"] := rfl
    rw [h3, List.length_append, List.length_replicate]
    decide

end TextSampler
